import Mathlib

/-!
Verification of the devexpress-bootstrap-mcp crawler and server.

The TypeScript source is shallowly embedded: JS strings are `List Char`,
the WHATWG `URL` platform parser is modelled by a small concrete parser
capturing scheme://host/path?search#hash (the shape the code relies on),
network fetches and the cheerio HTML extraction are environment
capabilities passed in explicitly, and the crawl `while` loops become
fuel-indexed recursion.
-/

/-- Model of a parsed JS `URL` object: the components the source reads. -/
structure URLModel where
  scheme : List Char
  host : List Char
  pathname : List Char
  search : List Char
  hash : List Char
deriving DecidableEq

/-- Characters allowed in the scheme part before the `://`. -/
def schemeChar (c : Char) : Bool :=
  c ≠ ':' && c ≠ '/' && c ≠ '?' && c ≠ '#'

/-- Characters allowed in the host part (stops at path, query or fragment). -/
def hostChar (c : Char) : Bool :=
  c ≠ '/' && c ≠ '?' && c ≠ '#'

/-- Model of `new URL(s)`: `none` models the thrown `TypeError` on malformed
input. An empty path serialises to `/` as the WHATWG parser does. -/
def parseUrl (l : List Char) : Option URLModel :=
  let scheme := l.takeWhile schemeChar
  let rest1 := l.dropWhile schemeChar
  if scheme.isEmpty then none
  else
    match rest1 with
    | ':' :: '/' :: '/' :: rest2 =>
      let host := rest2.takeWhile hostChar
      let rest3 := rest2.dropWhile hostChar
      if host.isEmpty then none
      else
        let beforeHash := rest3.takeWhile (fun c => c ≠ '#')
        let hash := rest3.dropWhile (fun c => c ≠ '#')
        let path0 := beforeHash.takeWhile (fun c => c ≠ '?')
        let search := beforeHash.dropWhile (fun c => c ≠ '?')
        some { scheme := scheme, host := host,
               pathname := if path0.isEmpty then ['/'] else path0,
               search := search, hash := hash }
    | _ => none

/-- Model of the `url.href` serialisation. -/
def href (u : URLModel) : List Char :=
  u.scheme ++ ':' :: '/' :: '/' :: (u.host ++ u.pathname ++ u.search ++ u.hash)

/-- Model of `normalizeUrl` from crawl.ts / server.ts: strip hash and query, then strip
a single trailing slash unless the path is root; malformed input is returned
unchanged. -/
def normalizeUrl (s : List Char) : List Char :=
  match parseUrl s with
  | none => s
  | some u =>
    let u2 : URLModel := { u with search := [], hash := [] }
    let normalized := href u2
    if normalized.getLast? = some '/' ∧ u2.pathname ≠ ['/'] then
      normalized.dropLast
    else normalized

/-- The `ALLOWED_HOST` constant from the source. -/
def ALLOWED_HOST : List Char := ("docs.devexpress.com").toList

/-- The `ALLOWED_PATH_PREFIX` constant from the source (renamed slightly). -/
def ALLOWED_PATH_PFX : List Char := ("/AspNetBootstrap/").toList

/-- JS `String.prototype.startsWith` on char lists. -/
def listStartsWith (l p : List Char) : Bool :=
  l.take p.length == p

/-- Model of `isAllowedUrl` from crawl.ts / server.ts. -/
def isAllowedUrl (s : List Char) : Bool :=
  match parseUrl s with
  | none => false
  | some u => u.host == ALLOWED_HOST && listStartsWith u.pathname ALLOWED_PATH_PFX

/-- The host component of a URL string, when it parses. -/
def hostOf (s : List Char) : Option (List Char) :=
  (parseUrl s).map URLModel.host

/-- The pathname component of a URL string, when it parses. -/
def pathnameOf (s : List Char) : Option (List Char) :=
  (parseUrl s).map URLModel.pathname

/-- Whether a char list ends in two consecutive slashes. -/
def endsTwoSlash (l : List Char) : Bool :=
  l.reverse.take 2 == ['/', '/']

/-- Whether the parsed pathname of a URL string ends in two slashes. -/
def pathEndsTwoSlash (s : List Char) : Bool :=
  match parseUrl s with
  | none => false
  | some u => endsTwoSlash u.pathname

/-! ## Shared string utilities from the source -/

/-- Insertion-order deduplication: JS `Set` semantics (`[...new Set(xs)]` and
link collection keep the first occurrence). `seen` holds already-emitted
elements. -/
def dedupKeepFirst (seen : List (List Char)) : List (List Char) → List (List Char)
  | [] => []
  | x :: xs =>
    if x ∈ seen then dedupKeepFirst seen xs
    else x :: dedupKeepFirst (x :: seen) xs

/-- JS `String.prototype.endsWith` on char lists. -/
def endsWithL (l s : List Char) : Bool :=
  listStartsWith l.reverse s.reverse

/-- JS `.replace(/\s+/g, " ").trim()`: collapse whitespace runs to single
spaces and trim. -/
def collapseWs (l : List Char) : List Char :=
  List.intercalate [' '] ((l.splitOnP Char.isWhitespace).filter (fun w => ¬ w.isEmpty))

/-- JS `String.prototype.trim` on char lists. -/
def trimL (l : List Char) : List Char :=
  ((l.dropWhile Char.isWhitespace).reverse.dropWhile Char.isWhitespace).reverse

/-- Coerce an integer to the signed 32-bit range, as JS `|`, `&`, `<<` do. -/
def toInt32 (n : Int) : Int :=
  (n + 2 ^ 31) % 2 ^ 32 - 2 ^ 31

/-- One step of the JS string hash: `hash = ((hash << 5) - hash) + char`
followed by `hash = hash & hash`. -/
def hashStep (h : Int) (c : Char) : Int :=
  toInt32 (toInt32 (h * 32) - h + (c.toNat : Int))

/-- Digit for `Number.prototype.toString(36)`. -/
def base36digit (n : Nat) : Char :=
  if n < 10 then Char.ofNat (48 + n) else Char.ofNat (87 + n)

/-- Base-36 digits of `n`, most significant first; fuel-indexed. -/
def toBase36Aux : Nat → Nat → List Char → List Char
  | 0, _, acc => acc
  | fuel + 1, n, acc =>
    if n = 0 then acc
    else toBase36Aux fuel (n / 36) (base36digit (n % 36) :: acc)

/-- JS `n.toString(36)` for a nonnegative integer. -/
def toBase36 (n : Nat) : List Char :=
  if n = 0 then ['0'] else toBase36Aux n n []

/-- Model of `hashString` from crawl.ts / server.ts: 32-bit rolling hash rendered in
base 36 after `Math.abs`. -/
def hashString (s : List Char) : List Char :=
  toBase36 (s.foldl hashStep 0).natAbs

/-! ## Crawl engine (crawl.ts, with the consecutive-failure circuit breaker) -/

/-- One crawled documentation page (the `IndexedPage` interface). -/
structure IndexedPage where
  id : List Char
  url : List Char
  title : List Char
  headings : List (List Char)
  text : List Char
  codeBlocks : List (List Char)
  fetchedAt : List Char
deriving DecidableEq

/-- What the cheerio extraction capability yields for one fetched HTML page:
the og:title meta value, the title element text, heading texts, pre-block
texts, hyperlink hrefs already resolved to absolute form, the body text after
boilerplate removal, and the clock reading. -/
structure FetchedDoc where
  ogTitle : List Char
  titleTag : List Char
  headings : List (List Char)
  codeBlocks : List (List Char)
  linkHrefs : List (List Char)
  bodyText : List Char
  fetchedAt : List Char
deriving DecidableEq

/-- Outcome of one `fetch`: HTTP errors and thrown transport errors take the
same failure path in the crawl loop. -/
inductive FetchOutcome where
  | failure
  | success (doc : FetchedDoc)
deriving DecidableEq

/-- The network environment of a crawl run. -/
structure CrawlEnv where
  fetch : List Char → FetchOutcome

/-- Model of `extractLinks` from the source: each absolute href is normalised, scope
filtered, and collected with `Set` (first-occurrence) deduplication. -/
def extractLinks (hrefs : List (List Char)) : List (List Char) :=
  dedupKeepFirst [] ((hrefs.map normalizeUrl).filter (fun l => isAllowedUrl l))

/-- Build the `IndexedPage` record pushed by the crawl loop. -/
def mkPage (normalized : List Char) (doc : FetchedDoc) : IndexedPage :=
  { id := hashString normalized
    url := normalized
    title := trimL (if doc.ogTitle.isEmpty then doc.titleTag else doc.ogTitle)
    headings := (doc.headings.map trimL).filter (fun h => ¬ h.isEmpty)
    text := collapseWs doc.bodyText
    codeBlocks := (doc.codeBlocks.map trimL).filter (fun c => ¬ c.isEmpty)
    fetchedAt := doc.fetchedAt }

namespace CrawlT

/-- Mutable state of `crawlDocumentation` in crawl.ts. -/
structure CrawlState where
  queue : List (List Char)
  visited : List (List Char)
  pages : List IndexedPage
  failures : Nat
  consecutiveFailures : Nat
deriving DecidableEq

/-- The `while (queue.length > 0 && pages.length < maxPages)` loop of
crawl.ts, fuel-indexed. On failure both counters are incremented and the
crawl stops once `consecutiveFailures` reaches 10; on success the counter
resets, links not yet visited are enqueued and the page is appended. -/
def crawlLoop (env : CrawlEnv) (maxPages : Nat) : Nat → CrawlState → CrawlState
  | 0, st => st
  | fuel + 1, st =>
    match st.queue with
    | [] => st
    | url :: rest =>
      if st.pages.length < maxPages then
        let normalized := normalizeUrl url
        if normalized ∈ st.visited then
          crawlLoop env maxPages fuel { st with queue := rest }
        else
          let st1 : CrawlState :=
            { st with queue := rest, visited := normalized :: st.visited }
          if isAllowedUrl normalized then
            match env.fetch normalized with
            | .failure =>
              let st2 : CrawlState :=
                { st1 with failures := st1.failures + 1,
                           consecutiveFailures := st1.consecutiveFailures + 1 }
              if 10 ≤ st2.consecutiveFailures then st2
              else crawlLoop env maxPages fuel st2
            | .success doc =>
              let st2 : CrawlState := { st1 with consecutiveFailures := 0 }
              let newLinks :=
                (extractLinks doc.linkHrefs).filter (fun l => ¬ l ∈ st2.visited)
              crawlLoop env maxPages fuel
                { st2 with queue := st2.queue ++ newLinks,
                           pages := st2.pages ++ [mkPage normalized doc] }
          else crawlLoop env maxPages fuel st1
      else st

/-- Model of `crawlDocumentation` from crawl.ts: frontier starts at the normalised
start URL, everything else empty. -/
def crawlDocumentation (env : CrawlEnv) (startUrl : List Char)
    (maxPages fuel : Nat) : CrawlState :=
  crawlLoop env maxPages fuel
    { queue := [normalizeUrl startUrl], visited := [], pages := [],
      failures := 0, consecutiveFailures := 0 }

end CrawlT

/-- The resume merge from `main` in crawl.ts / the standalone crawler: keep
every existing record, append only the crawled pages whose url is not
already present. -/
def mergePages (existingPages pages : List IndexedPage) : List IndexedPage :=
  let existingUrls := existingPages.map IndexedPage.url
  let newPages := pages.filter (fun p => ¬ p.url ∈ existingUrls)
  existingPages ++ newPages

/-! ## MCP server (server.ts and the github-enabled server variant) -/

namespace ServerT

/-- A MiniSearch hit: document id and relevance score. -/
structure SearchResult where
  id : List Char
  score : Nat
deriving DecidableEq

/-- The MiniSearch engine capability: a built index maps a query to ranked
hits, best first. -/
abbrev SearchEngine : Type := List Char → List SearchResult

/-- Crawl state of the server-side `crawlDocumentation` (this variant has no
consecutive-failure circuit breaker). -/
structure SCrawlState where
  queue : List (List Char)
  visited : List (List Char)
  pages : List IndexedPage
  failures : Nat
deriving DecidableEq

/-- The crawl loop of server.ts: identical to the standalone crawler except
that failures only increment `failures`. -/
def crawlLoop (env : CrawlEnv) (maxPages : Nat) : Nat → SCrawlState → SCrawlState
  | 0, st => st
  | fuel + 1, st =>
    match st.queue with
    | [] => st
    | url :: rest =>
      if st.pages.length < maxPages then
        let normalized := normalizeUrl url
        if normalized ∈ st.visited then
          crawlLoop env maxPages fuel { st with queue := rest }
        else
          let st1 : SCrawlState :=
            { st with queue := rest, visited := normalized :: st.visited }
          if isAllowedUrl normalized then
            match env.fetch normalized with
            | .failure =>
              crawlLoop env maxPages fuel { st1 with failures := st1.failures + 1 }
            | .success doc =>
              let newLinks :=
                (extractLinks doc.linkHrefs).filter (fun l => ¬ l ∈ st1.visited)
              crawlLoop env maxPages fuel
                { st1 with queue := st1.queue ++ newLinks,
                           pages := st1.pages ++ [mkPage normalized doc] }
          else crawlLoop env maxPages fuel st1
      else st

/-- Model of `crawlDocumentation` from server.ts. -/
def crawlDocumentation (env : CrawlEnv) (startUrl : List Char)
    (maxPages fuel : Nat) : SCrawlState :=
  crawlLoop env maxPages fuel
    { queue := [normalizeUrl startUrl], visited := [], pages := [], failures := 0 }

/-- The `IndexMeta` record written on a successful refresh. -/
structure IndexMeta where
  startUrl : List Char
  maxPages : Nat
  delayMs : Nat
  indexedCount : Nat
  visitedCount : Nat
  failureCount : Nat
  lastRefresh : List Char
  allowedHost : List Char
  allowedPathPfx : List Char

/-- The server's in-memory corpus state: `indexedPages`, `searchIndex` and
`indexMeta` module-level variables. -/
structure ServerState where
  indexedPages : List IndexedPage
  searchIndex : Option SearchEngine
  indexMeta : Option IndexMeta

/-- Payload of `devexpress_bootstrap_refresh_index`. -/
inductive RefreshResponse where
  | error (message : List Char)
  | success (indexedCount visitedCount failureCount : Nat)

/-- The scope-violation message template of `handleRefreshIndex`. -/
def scopeErrMsg : List Char :=
  ("Start URL must be on ").toList ++ ALLOWED_HOST ++
    (" and start with ").toList ++ ALLOWED_PATH_PFX

/-- Model of `handleRefreshIndex`: reject a start URL that fails the scope filter
before crawling; otherwise crawl, build the index and replace the in-memory
state wholesale. `build` is the MiniSearch index-construction capability and
`now` the clock reading. -/
def handleRefreshIndex (env : CrawlEnv) (build : List IndexedPage → SearchEngine)
    (now : List Char) (st : ServerState) (startUrl : List Char)
    (maxPages delayMs fuel : Nat) : RefreshResponse × ServerState :=
  if isAllowedUrl startUrl then
    let r := crawlDocumentation env startUrl maxPages fuel
    let meta : IndexMeta :=
      { startUrl := startUrl, maxPages := maxPages, delayMs := delayMs,
        indexedCount := r.pages.length, visitedCount := r.visited.length,
        failureCount := r.failures, lastRefresh := now,
        allowedHost := ALLOWED_HOST, allowedPathPfx := ALLOWED_PATH_PFX }
    (.success r.pages.length r.visited.length r.failures,
      { indexedPages := r.pages, searchIndex := some (build r.pages),
        indexMeta := some meta })
  else (.error scopeErrMsg, st)

/-- One entry of the `top3Results` summary list. -/
structure Top3Entry where
  title : List Char
  url : List Char
  score : Nat
deriving DecidableEq

/-- Successful payload of `devexpress_bootstrap_open_top_result`. -/
structure TopResultSuccess where
  title : List Char
  url : List Char
  fetchedAt : List Char
  headings : List (List Char)
  text : List Char
  top3Results : List Top3Entry
  codeBlocks : Option (List (List Char))
deriving DecidableEq

/-- Result of `handleOpenTopResult`, one constructor per `status` value. -/
inductive TopResultResponse where
  | noIndex
  | noResults
  | internalError
  | securityError
  | success (r : TopResultSuccess)
deriving DecidableEq

/-- The truncation marker appended by `handleOpenTopResult`: two newlines,
an opening bracket, the text naming maxChars, and a closing bracket. -/
def truncMarker (maxChars : Nat) : List Char :=
  ('\n' :: '\n' :: ("[... truncated at ").toList) ++
    (Nat.repr maxChars).toList ++ (" characters ...]").toList

/-- Model of `handleOpenTopResult` from server.ts. -/
def handleOpenTopResult (st : ServerState) (query : List Char)
    (includeCode : Bool) (maxChars : Nat) : TopResultResponse :=
  match st.searchIndex with
  | none => .noIndex
  | some se =>
    if st.indexedPages.length = 0 then .noIndex
    else
      match se query with
      | [] => .noResults
      | top :: restResults =>
        match st.indexedPages.find? (fun p => p.id == top.id) with
        | none => .internalError
        | some topPage =>
          if isAllowedUrl topPage.url then
            let top3 := ((top :: restResults).take 3).map (fun r =>
              match st.indexedPages.find? (fun p => p.id == r.id) with
              | some page => Top3Entry.mk page.title page.url r.score
              | none => Top3Entry.mk (("Unknown").toList) [] r.score)
            let text :=
              if maxChars < topPage.text.length then
                topPage.text.take maxChars ++ truncMarker maxChars
              else topPage.text
            .success
              { title := topPage.title, url := topPage.url,
                fetchedAt := topPage.fetchedAt,
                headings := topPage.headings.take 10, text := text,
                top3Results := top3,
                codeBlocks :=
                  if includeCode ∧ topPage.codeBlocks.length ≠ 0 then
                    some (topPage.codeBlocks.take 5)
                  else none }
          else .securityError

/-- The top-result resolution steps of `handleOpenTopResult` (index present,
corpus non-empty, first hit resolved back to its record). -/
def topPageOf (st : ServerState) (query : List Char) : Option IndexedPage :=
  match st.searchIndex with
  | none => none
  | some se =>
    if st.indexedPages.length = 0 then none
    else
      match se query with
      | [] => none
      | top :: _ => st.indexedPages.find? (fun p => p.id == top.id)

/-- The body text carried by a response, when it is a success. -/
def responseText : TopResultResponse → Option (List Char)
  | .success r => some r.text
  | _ => none

end ServerT

/-! ## Repository file walker (the recursive github-crawler variant) -/

namespace GH

/-- One indexed source file (the `GitHubExample` interface). -/
structure GitHubExample where
  id : List Char
  title : List Char
  filePath : List Char
  repoName : List Char
  repoUrl : List Char
  fileUrl : List Char
  language : List Char
  content : List Char
  contentPreview : List Char
  relatedClasses : List (List Char)
  relatedMethods : List (List Char)
  description : List Char
  fetchedAt : List Char
deriving DecidableEq

/-- Raw file content together with the regex-engine capability's view of it:
the successive capture groups of the class and method declaration patterns. -/
structure FileContent where
  text : List Char
  classMatches : List (List Char)
  methodMatches : List (List Char)
deriving DecidableEq

/-- Entry kind reported by the GitHub contents API. -/
inductive EType where
  | file
  | dir
  | other
deriving DecidableEq

/-- One GitHub contents API entry. -/
structure Entry where
  path : List Char
  etype : EType
  downloadUrl : Option (List Char)
deriving DecidableEq

/-- A file selected by `findCodeFiles`. -/
structure FileRef where
  path : List Char
  downloadUrl : List Char
deriving DecidableEq

/-- The GitHub REST capabilities: directory listing, raw file retrieval and
the clock. -/
structure GHEnv where
  listContents : List Char → List Char → List Char → List Entry
  fetchFile : List Char → Option FileContent
  now : List Char

/-- The keyword stoplist applied to class-regex captures. -/
def classStoplist : List (List Char) :=
  [("class").toList, ("new").toList, ("return").toList,
   ("public").toList, ("private").toList]

/-- The keyword stoplist applied to method-regex captures. -/
def methodStoplist : List (List Char) :=
  [("if").toList, ("for").toList, ("while").toList, ("switch").toList,
   ("catch").toList, ("using").toList, ("new").toList]

/-- Model of `extractMetadata`: drop stoplisted captures, then deduplicate with
`[...new Set(xs)]`. -/
def extractMetadata (c : FileContent) : List (List Char) × List (List Char) :=
  (dedupKeepFirst [] (c.classMatches.filter (fun m => ¬ m ∈ classStoplist)),
   dedupKeepFirst [] (c.methodMatches.filter (fun m => ¬ m ∈ methodStoplist)))

/-- Count a leading run of stars; returns the count and the remainder. -/
def starRun : List Char → Nat × List Char
  | '*' :: r => let (n, r2) := starRun r; (n + 1, r2)
  | l => (0, l)

/-- Model of the block-comment-marker removal regex replace: delete every opener or
closer, scanning left to right; fuel-indexed (one char consumed per unit). -/
def stripBlockMarks : Nat → List Char → List Char
  | 0, l => l
  | _ + 1, [] => []
  | fuel + 1, c :: cs =>
    if c = '/' then
      match cs with
      | '*' :: r => stripBlockMarks fuel (starRun r).2
      | _ => '/' :: stripBlockMarks fuel cs
    else if c = '*' then
      match (starRun cs).2 with
      | '/' :: r2 => stripBlockMarks fuel r2
      | _ => '*' :: stripBlockMarks fuel cs
    else c :: stripBlockMarks fuel cs

/-- Model of the line-comment-marker regex replace: remove the first triple or double slash. -/
def removeDSlash : List Char → List Char
  | '/' :: '/' :: '/' :: r => r
  | '/' :: '/' :: r => r
  | c :: cs => c :: removeDSlash cs
  | [] => []

/-- Model of the leading-marker stripping: drop leading whitespace, slashes and stars. -/
def dropLeadMarks (l : List Char) : List Char :=
  l.dropWhile (fun c => c.isWhitespace || c = '/' || c = '*')

/-- The per-line cleanup inside `extractDescription`. -/
def cleanCommentLine (l : List Char) : List Char :=
  trimL (removeDSlash (dropLeadMarks (stripBlockMarks l.length l)))

/-- JS `String.prototype.includes` on char lists. -/
def isInfixL (p l : List Char) : Bool :=
  decide (p <:+: l)

/-- Does a line look like a comment (contains `//`, `/*` or `*`)? The `///`
test of the source is subsumed by `//`. -/
def looksComment (l : List Char) : Bool :=
  isInfixL (("//").toList) l || isInfixL (("/*").toList) l || isInfixL ['*'] l

/-- Model of `extractDescription` from the walker variant: first 30 lines, comment
lines only, markers stripped, short and using/namespace lines dropped,
joined and capped at 300 characters. -/
def extractDescription (code : List Char) : List Char :=
  let lines := (code.splitOn '\n').take 30
  let comments :=
    ((lines.filter looksComment).map cleanCommentLine).filter
      (fun l => 5 < l.length ∧ isInfixL (("using").toList) l = false ∧
        isInfixL (("namespace").toList) l = false)
  (List.intercalate [' '] comments).take 300

/-- Model of the extension-stripping regex replace: drop a final dot-extension when the
name has one. -/
def stripExt (l : List Char) : List Char :=
  let r := l.reverse
  let afterDot := r.takeWhile (fun c => c ≠ '.')
  let fromDot := r.dropWhile (fun c => c ≠ '.')
  if afterDot.isEmpty ∨ fromDot.isEmpty then l
  else (fromDot.drop 1).reverse

/-- Derive the example title from the file path: last path segment, extension
removed, `_` and `-` replaced by spaces. -/
def titleOf (filePath : List Char) : List Char :=
  let parts := filePath.splitOn '/'
  let fileName := parts.getLastD filePath
  let fileName := if fileName.isEmpty then filePath else fileName
  (stripExt fileName).map (fun c => if c = '_' ∨ c = '-' then ' ' else c)

/-- Model of `indexFile` from the walker variant: fetch raw content, discard anything
shorter than 50 characters, truncate to the fixed 8000-character cap, extract
metadata and description and assemble the record. -/
def indexFile (env : GHEnv) (owner repo filePath downloadUrl : List Char) :
    Option GitHubExample :=
  match env.fetchFile downloadUrl with
  | none => none
  | some content =>
    if content.text.length < 50 then none
    else
      let maxSize := 8000
      let truncatedContent := content.text.take maxSize
      let meta := extractMetadata content
      let language :=
        if endsWithL filePath ((".aspx").toList) then ("aspx").toList
        else if endsWithL filePath ((".ascx").toList) then ("ascx").toList
        else ("csharp").toList
      some
        { id := owner ++ '/' :: repo ++ ':' :: filePath
          title := titleOf filePath
          filePath := filePath
          repoName := owner ++ '/' :: repo
          repoUrl := ("https://github.com/").toList ++ owner ++ '/' :: repo
          fileUrl := ("https://github.com/").toList ++ owner ++ '/' :: repo ++
            ("/blob/main/").toList ++ filePath
          language := language
          content := truncatedContent
          contentPreview := truncatedContent.take 500
          relatedClasses := meta.1.take 15
          relatedMethods := meta.2.take 15
          description := extractDescription content.text
          fetchedAt := env.now }

/-- Directory names pruned during traversal. -/
def blockedDirs : List (List Char) :=
  [("bin").toList, ("obj").toList, ("node_modules").toList, (".git").toList,
   ("packages").toList, ("debug").toList, ("release").toList]

/-- The (lower-cased) last segment of a directory path. -/
def dirNameOf (p : List Char) : List Char :=
  ((p.splitOn '/').getLastD []).map Char.toLower

/-- Extension allowlist of `findCodeFiles` (`.aspx.cs` is subsumed by
`.cs`). -/
def isCodeFile (p : List Char) : Bool :=
  let ext := p.map Char.toLower
  endsWithL ext ((".cs").toList) || endsWithL ext ((".aspx").toList) ||
    endsWithL ext ((".ascx").toList)

/-- The item loop of `findCodeFiles`: `rd` is the remaining descent depth,
`maxFiles` the file budget of this invocation, `acc` the files collected so
far by this invocation; fuel-indexed. -/
def ghWalk (env : GHEnv) (owner repo : List Char) :
    Nat → Nat → List Entry → Nat → List FileRef → List FileRef
  | 0, _, _, _, acc => acc
  | _ + 1, _, [], _, acc => acc
  | fuel + 1, rd, item :: restItems, maxFiles, acc =>
    if maxFiles ≤ acc.length then acc
    else
      match item.etype with
      | .file =>
        if isCodeFile item.path then
          match item.downloadUrl with
          | some du =>
            ghWalk env owner repo fuel rd restItems maxFiles (acc ++ [⟨item.path, du⟩])
          | none => ghWalk env owner repo fuel rd restItems maxFiles acc
        else ghWalk env owner repo fuel rd restItems maxFiles acc
      | .dir =>
        if 0 < rd ∧ ¬ dirNameOf item.path ∈ blockedDirs then
          let sub := ghWalk env owner repo fuel (rd - 1)
            (env.listContents owner repo item.path) (maxFiles - acc.length) []
          ghWalk env owner repo fuel rd restItems maxFiles (acc ++ sub)
        else ghWalk env owner repo fuel rd restItems maxFiles acc
      | .other => ghWalk env owner repo fuel rd restItems maxFiles acc

/-- Model of `findCodeFiles` with the fixed maximum depth 3 used by the crawler. -/
def findCodeFiles (env : GHEnv) (owner repo basePath : List Char)
    (maxFiles fuel : Nat) : List FileRef :=
  ghWalk env owner repo fuel 3 (env.listContents owner repo basePath) maxFiles []

/-- One repository of the fixed `DEVEXPRESS_REPOS` list. -/
structure RepoSpec where
  owner : List Char
  repo : List Char
  paths : List (List Char)

/-- The fixed repository list of the walker variant. -/
def DEVEXPRESS_REPOS : List RepoSpec :=
  [⟨("DevExpress").toList, ("DevExtreme.AspNet.Data").toList, [("net").toList]⟩,
   ⟨("DevExpress-Examples").toList,
    ("asp-net-web-forms-grid-view-batch-edit-mode").toList, [[]]⟩,
   ⟨("DevExpress-Examples").toList, ("asp-net-web-forms-grid-layout").toList, [[]]⟩,
   ⟨("DevExpress-Examples").toList, ("asp-net-bootstrap-controls-demos").toList,
    [("CS").toList]⟩,
   ⟨("DevExpress-Examples").toList,
    ("aspnet-bootstrap-controls-how-to-get-started").toList, [[]]⟩,
   ⟨("DevExpress-Examples").toList,
    ("reporting-how-to-use-aspnet-webforms-bootstrap-web-report-viewer").toList, [[]]⟩]

/-- The per-file loop of `crawlGitHubExamples`: index each found file while
the global example budget allows. -/
def crawlFilesLoop (env : GHEnv) (owner repo : List Char) :
    List FileRef → Nat → List GitHubExample → List GitHubExample
  | [], _, acc => acc
  | f :: fs, maxFiles, acc =>
    if maxFiles ≤ acc.length then acc
    else
      match indexFile env owner repo f.path f.downloadUrl with
      | some ex => crawlFilesLoop env owner repo fs maxFiles (acc ++ [ex])
      | none => crawlFilesLoop env owner repo fs maxFiles acc

/-- The per-base-path loop of `crawlGitHubExamples`: list at most
`min 20 (maxFiles - examples.length)` files per base path. -/
def crawlPathsLoop (env : GHEnv) (owner repo : List Char) :
    List (List Char) → Nat → Nat → List GitHubExample → List GitHubExample
  | [], _, _, acc => acc
  | bp :: bps, maxFiles, fuel, acc =>
    if maxFiles ≤ acc.length then acc
    else
      let files := findCodeFiles env owner repo bp (min 20 (maxFiles - acc.length)) fuel
      crawlPathsLoop env owner repo bps maxFiles fuel
        (crawlFilesLoop env owner repo files maxFiles acc)

/-- The repository loop of `crawlGitHubExamples`. -/
def crawlReposLoop (env : GHEnv) :
    List RepoSpec → Nat → Nat → List GitHubExample → List GitHubExample
  | [], _, _, acc => acc
  | r :: rs, maxFiles, fuel, acc =>
    if maxFiles ≤ acc.length then acc
    else
      crawlReposLoop env rs maxFiles fuel
        (crawlPathsLoop env r.owner r.repo r.paths maxFiles fuel acc)

/-- Model of `crawlGitHubExamples` from the walker variant (the `examples` result;
metadata bookkeeping is not modelled). -/
def crawlGitHubExamples (env : GHEnv) (maxFiles fuel : Nat) : List GitHubExample :=
  crawlReposLoop env DEVEXPRESS_REPOS maxFiles fuel []

/-- The github-examples server state: `githubExamples` and
`githubSearchIndex` module-level variables. -/
structure GHServerState where
  githubExamples : List GitHubExample
  githubSearchIndex : Option ServerT.SearchEngine

/-- Result of `handleSearchExamples`, one constructor per `status` value. -/
inductive SearchExamplesResponse where
  | noIndex
  | noResults
  | success (totalResults returnedResults : Nat) (results : List GitHubExample)

/-- Model of `handleSearchExamples` from the github-enabled server: no-index check,
search, optional exact language filter, then the top `maxResults` hits
resolved back to their records. -/
def handleSearchExamples (st : GHServerState) (query : List Char)
    (language : Option (List Char)) (maxResults : Nat) : SearchExamplesResponse :=
  match st.githubSearchIndex with
  | none => .noIndex
  | some se =>
    if st.githubExamples.length = 0 then .noIndex
    else
      match se query with
      | [] => .noResults
      | r :: rs =>
        let results := r :: rs
        let filteredResults :=
          match language with
          | none => results
          | some lang =>
            let langLower := lang.map Char.toLower
            results.filter (fun (hit : ServerT.SearchResult) =>
              match st.githubExamples.find? (fun (e : GitHubExample) => e.id == hit.id) with
              | some e => e.language == langLower
              | none => false)
        let top := (filteredResults.take maxResults).filterMap
          (fun (hit : ServerT.SearchResult) =>
            st.githubExamples.find? (fun (e : GitHubExample) => e.id == hit.id))
        .success filteredResults.length top.length top

end GH

/-! ## Concrete test fixtures -/

/-- Links served by the C2 test page. -/
def linksC2 : List (List Char) :=
  [("https://docs.devexpress.com/AspNetBootstrap/p1").toList,
   ("https://docs.devexpress.com/AspNetBootstrap/p2").toList,
   ("https://docs.devexpress.com/AspNetBootstrap/p3").toList,
   ("https://docs.devexpress.com/AspNetBootstrap/p4").toList,
   ("https://docs.devexpress.com/AspNetBootstrap/p5").toList,
   ("https://docs.devexpress.com/AspNetBootstrap/p6").toList,
   ("https://docs.devexpress.com/AspNetBootstrap/p7").toList,
   ("https://docs.devexpress.com/AspNetBootstrap/p8").toList,
   ("https://docs.devexpress.com/AspNetBootstrap/p9").toList,
   ("https://docs.devexpress.com/AspNetBootstrap/p10").toList]

/-- The one successfully fetched test document: ten in-scope links. -/
def docC2 : FetchedDoc :=
  { ogTitle := [], titleTag := ("T").toList, headings := [], codeBlocks := [],
    linkHrefs := linksC2, bodyText := ("body").toList, fetchedAt := ("now").toList }

/-- Start URL of the test crawl. -/
def startC2 : List Char :=
  ("https://docs.devexpress.com/AspNetBootstrap/p0").toList

/-- Test environment: the start page succeeds with ten links, every other
fetch fails, so ten consecutive failures follow one success. -/
def envC2 : CrawlEnv :=
  ⟨fun url => if url = startC2 then .success docC2 else .failure⟩

/-- A stored documentation page used by the server fixtures. -/
def pgC8 : IndexedPage :=
  { id := hashString (("https://docs.devexpress.com/AspNetBootstrap/grid").toList)
    url := ("https://docs.devexpress.com/AspNetBootstrap/grid").toList
    title := ("Grid").toList
    headings := []
    text := ("hello world").toList
    codeBlocks := [("var g = 1;").toList]
    fetchedAt := ("now").toList }

/-- A loaded server corpus whose search engine always returns the stored
page. -/
def stC8 : ServerT.ServerState :=
  { indexedPages := [pgC8]
    searchIndex := some (fun _ => [⟨pgC8.id, 3⟩])
    indexMeta := none }

/-- The empty documentation server state. -/
def stEmptyD : ServerT.ServerState :=
  { indexedPages := [], searchIndex := none, indexMeta := none }

/-- The empty github-examples server state. -/
def stEmptyG : GH.GHServerState :=
  { githubExamples := [], githubSearchIndex := none }

/-- A trivial index-construction capability. -/
def buildTrivial : List IndexedPage → ServerT.SearchEngine :=
  fun _ => fun _ => []

/-- Documentation pages for the merge fixtures: two share a url. -/
def pgA : IndexedPage :=
  { id := ("a").toList, url := ("u1").toList, title := ("tA").toList,
    headings := [], text := ("old text").toList, codeBlocks := [],
    fetchedAt := ("t1").toList }

/-- A freshly crawled page with the same url as `pgA` but different
content. -/
def pgB : IndexedPage :=
  { id := ("a").toList, url := ("u1").toList, title := ("tB").toList,
    headings := [], text := ("new text").toList, codeBlocks := [],
    fetchedAt := ("t2").toList }

/-- A freshly crawled page with a new url. -/
def pgC : IndexedPage :=
  { id := ("c").toList, url := ("u2").toList, title := ("tC").toList,
    headings := [], text := ("other").toList, codeBlocks := [],
    fetchedAt := ("t2").toList }

/-- A 30-character file content, below the 50-character minimum. -/
def cShortC4 : GH.FileContent :=
  { text := ("123456789012345678901234567890").toList,
    classMatches := [], methodMatches := [] }

/-- Walker test environment for C4: empty listings, every fetch returns the
short file. -/
def envC4 : GH.GHEnv :=
  { listContents := fun _ _ _ => [], fetchFile := fun _ => some cShortC4,
    now := ("now").toList }

/-- A 60-character file content whose regex captures contain duplicates and
stoplisted keywords. -/
def contentC5 : GH.FileContent :=
  { text := ("class Foo and class Foo again with plenty of padding chars.").toList,
    classMatches := [("Foo").toList, ("class").toList, ("Foo").toList],
    methodMatches := [("DoIt").toList, ("if").toList, ("DoIt").toList] }

/-- Walker test environment for C5. -/
def envC5 : GH.GHEnv :=
  { listContents := fun _ _ _ => [], fetchFile := fun _ => some contentC5,
    now := ("now").toList }

/-- The example produced by indexing the C5 fixture. -/
def exC5 : GH.GitHubExample :=
  (GH.indexFile envC5 (("DevExpress-Examples").toList) (("demo").toList)
    (("CS/My_Grid.aspx.cs").toList) (("du1").toList)).getD
    ⟨[], [], [], [], [], [], [], [], [], [], [], [], []⟩

/-- Well-formedness facts that hold of every parsed URL (for cleared search
and hash they are exactly what the serialise-parse roundtrip needs). -/
structure WFUrl (u : URLModel) : Prop where
  scheme_ne : u.scheme ≠ []
  scheme_ok : ∀ c ∈ u.scheme, schemeChar c = true
  host_ne : u.host ≠ []
  host_ok : ∀ c ∈ u.host, hostChar c = true
  path_head : u.pathname.head? = some '/'
  path_ok : ∀ c ∈ u.pathname, (c ≠ '?' ∧ c ≠ '#')

/-! ## List helper lemmas -/

theorem takeWhile_append_all {α : Type} {p : α → Bool} :
    ∀ {a : List α} (b : List α), (∀ x ∈ a, p x = true) →
      (a ++ b).takeWhile p = a ++ b.takeWhile p := by
  intro a
  induction a with
  | nil => intro b _; simp
  | cons x xs ih =>
    intro b h
    have hx : p x = true := h x (by simp)
    simp [List.takeWhile_cons, hx]
    exact ih b (fun y hy => h y (by simp [hy]))

theorem dropWhile_append_all {α : Type} {p : α → Bool} :
    ∀ {a : List α} (b : List α), (∀ x ∈ a, p x = true) →
      (a ++ b).dropWhile p = b.dropWhile p := by
  intro a
  induction a with
  | nil => intro b _; simp
  | cons x xs ih =>
    intro b h
    have hx : p x = true := h x (by simp)
    simp [List.dropWhile_cons, hx]
    exact ih b (fun y hy => h y (by simp [hy]))

theorem takeWhile_eq_self_all {α : Type} {p : α → Bool} {l : List α}
    (h : ∀ x ∈ l, p x = true) : l.takeWhile p = l := by
  have := takeWhile_append_all (p := p) (a := l) [] h
  simpa using this

theorem dropWhile_eq_nil_all {α : Type} {p : α → Bool} {l : List α}
    (h : ∀ x ∈ l, p x = true) : l.dropWhile p = [] := by
  have := dropWhile_append_all (p := p) (a := l) [] h
  simpa using this

theorem dropWhile_head_false {α : Type} {p : α → Bool} :
    ∀ {l : List α} {c : α} {t : List α}, l.dropWhile p = c :: t → p c = false := by
  intro l
  induction l with
  | nil => intro c t h; simp at h
  | cons x xs ih =>
    intro c t h
    by_cases hx : p x = true
    · rw [List.dropWhile_cons_of_pos hx] at h
      exact ih h
    · rw [List.dropWhile_cons_of_neg hx] at h
      cases h
      exact Bool.not_eq_true _ |>.mp hx

theorem takeWhile_head {α : Type} {p : α → Bool} :
    ∀ {l : List α} {c : α} {t : List α}, l.takeWhile p = c :: t →
      l.head? = some c := by
  intro l
  cases l with
  | nil => intro c t h; simp at h
  | cons x xs =>
    intro c t h
    by_cases hx : p x = true
    · rw [List.takeWhile_cons_of_pos hx] at h
      cases h
      rfl
    · rw [List.takeWhile_cons_of_neg hx] at h
      cases h

theorem getLast?_append_right {α : Type} {a p : List α} (h : p ≠ []) :
    (a ++ p).getLast? = p.getLast? := by
  rw [List.getLast?_append]
  cases hp : p.getLast? with
  | none => exact absurd (List.getLast?_eq_none_iff.mp hp) h
  | some c => rfl

theorem mem_takeWhile_base {α : Type} {p : α → Bool} {l : List α} {x : α}
    (h : x ∈ l.takeWhile p) : x ∈ l :=
  (List.takeWhile_sublist p).mem h

/-! ## URL parser facts -/

theorem parse_wf {s : List Char} {u : URLModel} (h : parseUrl s = some u) :
    WFUrl u := by
  unfold parseUrl at h
  dsimp only at h
  split at h
  · exact absurd h (by simp)
  next hsch =>
    split at h
    next rest2 hr =>
      split at h
      · exact absurd h (by simp)
      next hhost =>
        injection h with h
        subst h
        refine ⟨?_, ?_, ?_, ?_, ?_, ?_⟩
        · simpa [List.isEmpty_iff] using hsch
        · intro c hc; exact List.mem_takeWhile_imp hc
        · simpa [List.isEmpty_iff] using hhost
        · intro c hc; exact List.mem_takeWhile_imp hc
        · dsimp only
          split
          · rfl
          next h3 =>
            rw [List.isEmpty_iff] at h3
            obtain ⟨c0, t0, hp⟩ := List.exists_cons_of_ne_nil h3
            rw [hp]
            have hbh := takeWhile_head hp
            cases hb : (rest2.dropWhile hostChar).takeWhile (fun c => c ≠ '#') with
            | nil => rw [hb] at hp; simp at hp
            | cons cb tb =>
              rw [hb] at hbh
              simp only [List.head?_cons, Option.some_inj] at hbh
              rw [hbh] at hb
              have hrh := takeWhile_head hb
              cases hr3 : rest2.dropWhile hostChar with
              | nil => rw [hr3] at hb; simp at hb
              | cons cr tr =>
                rw [hr3] at hrh
                simp only [List.head?_cons, Option.some_inj] at hrh
                rw [hrh] at hr3
                have hfail : hostChar c0 = false := dropWhile_head_false hr3
                have hmem1 : c0 ∈ (rest2.dropWhile hostChar).takeWhile
                    (fun c => c ≠ '#') := by
                  rw [hb]; simp
                have hne1 : c0 ≠ '#' := by
                  simpa using List.mem_takeWhile_imp hmem1
                have hmem2 : c0 ∈ ((rest2.dropWhile hostChar).takeWhile
                    (fun c => c ≠ '#')).takeWhile (fun c => c ≠ '?') := by
                  rw [hp]; simp
                have hne2 : c0 ≠ '?' := by
                  simpa using List.mem_takeWhile_imp hmem2
                have hc0 : c0 = '/' := by
                  by_contra hne
                  simp [hostChar, hne, hne1, hne2] at hfail
                simp [hc0]
        · dsimp only
          intro c hc
          split at hc
          · simp at hc
            simp [hc]
          · refine ⟨?_, ?_⟩
            · have := List.mem_takeWhile_imp hc
              simpa using this
            · have hc2 := mem_takeWhile_base hc
              have := List.mem_takeWhile_imp hc2
              simpa using this
    · exact absurd h (by simp)

theorem parse_href {u : URLModel} (hw : WFUrl u) (hs : u.search = [])
    (hh : u.hash = []) : parseUrl (href u) = some u := by
  obtain ⟨sc, ho, pa, se, ha⟩ := u
  obtain ⟨hscne, hscok, hhone, hhook, hph, hpok⟩ := hw
  dsimp only at hscne hscok hhone hhook hph hpok hs hh
  subst hs hh
  obtain ⟨t, hpa⟩ : ∃ t, pa = '/' :: t := by
    cases pa with
    | nil => simp at hph
    | cons c t =>
      simp only [List.head?_cons, Option.some_inj] at hph
      exact ⟨t, by rw [hph]⟩
  subst hpa
  have h1 : href ⟨sc, ho, '/' :: t, [], []⟩ =
      sc ++ ':' :: '/' :: '/' :: (ho ++ '/' :: t) := by
    simp [href]
  rw [h1]
  unfold parseUrl
  dsimp only
  have htw : (sc ++ ':' :: '/' :: '/' :: (ho ++ '/' :: t)).takeWhile schemeChar = sc := by
    rw [takeWhile_append_all _ hscok, List.takeWhile_cons_of_neg (by decide)]
    simp
  have hdw : (sc ++ ':' :: '/' :: '/' :: (ho ++ '/' :: t)).dropWhile schemeChar =
      ':' :: '/' :: '/' :: (ho ++ '/' :: t) := by
    rw [dropWhile_append_all _ hscok, List.dropWhile_cons_of_neg (by decide)]
  rw [htw, hdw]
  rw [if_neg (by simpa [List.isEmpty_iff] using hscne)]
  have htw2 : (ho ++ '/' :: t).takeWhile hostChar = ho := by
    rw [takeWhile_append_all _ hhook, List.takeWhile_cons_of_neg (by decide)]
    simp
  have hdw2 : (ho ++ '/' :: t).dropWhile hostChar = '/' :: t := by
    rw [dropWhile_append_all _ hhook, List.dropWhile_cons_of_neg (by decide)]
  simp only [htw2, hdw2]
  rw [if_neg (by simpa [List.isEmpty_iff] using hhone)]
  have hbh : ('/' :: t).takeWhile (fun c => decide (c ≠ '#')) = '/' :: t :=
    takeWhile_eq_self_all (fun c hc => by simpa using (hpok c hc).2)
  have hhh : ('/' :: t).dropWhile (fun c => decide (c ≠ '#')) = [] :=
    dropWhile_eq_nil_all (fun c hc => by simpa using (hpok c hc).2)
  have hp0 : ('/' :: t).takeWhile (fun c => decide (c ≠ '?')) = '/' :: t :=
    takeWhile_eq_self_all (fun c hc => by simpa using (hpok c hc).1)
  have hse : ('/' :: t).dropWhile (fun c => decide (c ≠ '?')) = [] :=
    dropWhile_eq_nil_all (fun c hc => by simpa using (hpok c hc).1)
  simp only [hbh, hhh, hp0, hse]
  simp

theorem normalizeUrl_eq {s : List Char} {u : URLModel} (h : parseUrl s = some u) :
    normalizeUrl s =
      if u.pathname.getLast? = some '/' ∧ u.pathname ≠ ['/'] then
        (u.scheme ++ ':' :: '/' :: '/' :: u.host) ++ u.pathname.dropLast
      else (u.scheme ++ ':' :: '/' :: '/' :: u.host) ++ u.pathname := by
  have hw := parse_wf h
  have hne : u.pathname ≠ [] := by
    intro hnil
    have := hw.path_head
    rw [hnil] at this
    simp at this
  have hclear : href { u with search := [], hash := [] } =
      (u.scheme ++ ':' :: '/' :: '/' :: u.host) ++ u.pathname := by
    simp [href]
  have hlast : (href { u with search := [], hash := [] }).getLast? =
      u.pathname.getLast? := by
    rw [hclear]
    exact getLast?_append_right hne
  unfold normalizeUrl
  rw [h]
  dsimp only
  by_cases hcond : u.pathname.getLast? = some '/' ∧ u.pathname ≠ ['/']
  · rw [if_pos ⟨by rw [hlast]; exact hcond.1, hcond.2⟩, if_pos hcond]
    rw [hclear, List.dropLast_append_of_ne_nil _ hne]
  · rw [if_neg ?_, if_neg hcond, hclear]
    intro hc
    exact hcond ⟨by rw [← hlast]; exact hc.1, hc.2⟩

theorem wf_clear {u : URLModel} (hw : WFUrl u) :
    WFUrl { u with search := [], hash := [] } :=
  ⟨hw.scheme_ne, hw.scheme_ok, hw.host_ne, hw.host_ok, hw.path_head, hw.path_ok⟩

theorem wf_dropLast {u : URLModel} (hw : WFUrl u)
    (hne : u.pathname ≠ ['/']) :
    WFUrl { u with pathname := u.pathname.dropLast, search := [], hash := [] } := by
  refine ⟨hw.scheme_ne, hw.scheme_ok, hw.host_ne, hw.host_ok, ?_, ?_⟩
  · show u.pathname.dropLast.head? = some '/'
    have hph := hw.path_head
    cases hpa : u.pathname with
    | nil => rw [hpa] at hph; simp at hph
    | cons c t =>
      rw [hpa] at hph
      simp only [List.head?_cons, Option.some_inj] at hph
      subst hph
      cases t with
      | nil => exact absurd hpa hne
      | cons y t2 => simp
  · intro c hc
    exact hw.path_ok c ((List.dropLast_sublist _).mem hc)

theorem dropLast_getLast?_of_not_twoSlash {l : List Char}
    (h2 : endsTwoSlash l = false) (hsl : l.getLast? = some '/') :
    l.dropLast.getLast? ≠ some '/' := by
  have hrev : l.reverse.head? = some '/' := by rw [List.head?_reverse]; exact hsl
  cases hr : l.reverse with
  | nil => rw [hr] at hrev; simp at hrev
  | cons c r =>
    rw [hr] at hrev
    simp only [List.head?_cons, Option.some_inj] at hrev
    subst hrev
    have hl : l = r.reverse ++ ['/'] := by
      have := congrArg List.reverse hr
      simpa using this
    rw [hl, List.dropLast_concat, List.getLast?_reverse]
    unfold endsTwoSlash at h2
    rw [hr] at h2
    cases r with
    | nil => simp
    | cons y r2 =>
      intro hy
      simp only [List.head?_cons, Option.some_inj] at hy
      subst hy
      simp at h2

theorem normalize_of_parse_none {s : List Char} (hp : parseUrl s = none) :
    normalizeUrl s = s := by
  unfold normalizeUrl
  rw [hp]

theorem normalize_idem_of_parse {s : List Char} {u : URLModel}
    (hp : parseUrl s = some u) (h2 : endsTwoSlash u.pathname = false) :
    normalizeUrl (normalizeUrl s) = normalizeUrl s := by
  have hw := parse_wf hp
  rw [normalizeUrl_eq hp]
  by_cases hcond : u.pathname.getLast? = some '/' ∧ u.pathname ≠ ['/']
  · rw [if_pos hcond]
    have h3 : (u.scheme ++ ':' :: '/' :: '/' :: u.host) ++ u.pathname.dropLast =
        href { u with pathname := u.pathname.dropLast, search := [], hash := [] } := by
      simp [href]
    rw [h3]
    have hw3 := wf_dropLast hw hcond.2
    have hp3 := parse_href hw3 rfl rfl
    rw [normalizeUrl_eq hp3,
      if_neg (fun hc => dropLast_getLast?_of_not_twoSlash h2 hcond.1 hc.1)]
    simp [href]
  · rw [if_neg hcond]
    have h2' : (u.scheme ++ ':' :: '/' :: '/' :: u.host) ++ u.pathname =
        href { u with search := [], hash := [] } := by
      simp [href]
    rw [h2']
    have hpc := parse_href (wf_clear hw) rfl rfl
    rw [normalizeUrl_eq hpc, if_neg (fun hc => hcond ⟨hc.1, hc.2⟩)]
    simp [href]

theorem isAllowed_elim {s : List Char} (h : isAllowedUrl s = true) :
    ∃ u, parseUrl s = some u ∧ u.host = ALLOWED_HOST ∧
      u.pathname.take ALLOWED_PATH_PFX.length = ALLOWED_PATH_PFX := by
  unfold isAllowedUrl at h
  cases hp : parseUrl s with
  | none => rw [hp] at h; simp at h
  | some u =>
    rw [hp] at h
    simp only [Bool.and_eq_true, beq_iff_eq, listStartsWith] at h
    exact ⟨u, rfl, h.1, h.2⟩

theorem isAllowed_intro {s : List Char} {u : URLModel} (hp : parseUrl s = some u)
    (hh : u.host = ALLOWED_HOST)
    (hpw : u.pathname.take ALLOWED_PATH_PFX.length = ALLOWED_PATH_PFX) :
    isAllowedUrl s = true := by
  unfold isAllowedUrl
  rw [hp]
  simp [listStartsWith, hh, hpw]

theorem take_dropLast_eq {l p : List Char} (ht : l.take p.length = p) (hne : l ≠ p) :
    l.dropLast.take p.length = p := by
  have hlen : p.length < l.length := by
    by_contra hle
    push_neg at hle
    rw [List.take_of_length_le hle] at ht
    exact hne ht
  rw [List.dropLast_eq_take, List.take_take, min_eq_left (by omega)]
  exact ht

/-! ## Claim C3 -/

/-- C3 (counterexample): the claim that for every URL u with isAllowed(u)
true, isAllowed(normalize(u)) is also true, is false at the allowed URL
`https://docs.devexpress.com/AspNetBootstrap/`: normalisation strips the
trailing slash and the result no longer starts with the allowed path
prefix. -/
theorem isAllowed_normalize_counterexample :
    isAllowedUrl (("https://docs.devexpress.com/AspNetBootstrap/").toList) = true ∧
    isAllowedUrl (normalizeUrl
      (("https://docs.devexpress.com/AspNetBootstrap/").toList)) = false := by
  constructor
  · decide
  · decide

/-- C3 (amended): for every URL u with isAllowed(u) = true whose pathname is
not exactly the allowed path prefix, isAllowed(normalize(u)) = true; and for
every URL whose host differs from the configured allowed host (including
unparseable input), isAllowed returns false. -/
theorem isAllowed_normalize_amended (s : List Char) :
    ((isAllowedUrl s = true ∧ pathnameOf s ≠ some ALLOWED_PATH_PFX) →
      isAllowedUrl (normalizeUrl s) = true) ∧
    (hostOf s ≠ some ALLOWED_HOST → isAllowedUrl s = false) := by
  constructor
  · rintro ⟨ha, hnp⟩
    obtain ⟨u, hp, hh, ht⟩ := isAllowed_elim ha
    have hw := parse_wf hp
    have hnpp : u.pathname ≠ ALLOWED_PATH_PFX := by
      intro he
      refine hnp ?_
      unfold pathnameOf
      rw [hp]
      simp [he]
    rw [normalizeUrl_eq hp]
    by_cases hcond : u.pathname.getLast? = some '/' ∧ u.pathname ≠ ['/']
    · rw [if_pos hcond]
      have h3 : (u.scheme ++ ':' :: '/' :: '/' :: u.host) ++ u.pathname.dropLast =
          href { u with pathname := u.pathname.dropLast, search := [], hash := [] } := by
        simp [href]
      rw [h3]
      exact isAllowed_intro (parse_href (wf_dropLast hw hcond.2) rfl rfl) hh
        (take_dropLast_eq ht hnpp)
    · rw [if_neg hcond]
      have h2' : (u.scheme ++ ':' :: '/' :: '/' :: u.host) ++ u.pathname =
          href { u with search := [], hash := [] } := by
        simp [href]
      rw [h2']
      exact isAllowed_intro (parse_href (wf_clear hw) rfl rfl) hh ht
  · intro hho
    unfold isAllowedUrl
    cases hp : parseUrl s with
    | none => rfl
    | some u =>
      have hne : u.host ≠ ALLOWED_HOST := by
        intro he
        refine hho ?_
        unfold hostOf
        rw [hp]
        simp [he]
      simp [hne]

/-- Witness for C3's amended theorem at concrete allowed and foreign-host
URLs. -/
theorem isAllowed_normalize_amended_witness :
    isAllowedUrl (normalizeUrl
      (("https://docs.devexpress.com/AspNetBootstrap/grid").toList)) = true ∧
    isAllowedUrl (("https://example.com/AspNetBootstrap/x").toList) = false :=
  ⟨(isAllowed_normalize_amended
      (("https://docs.devexpress.com/AspNetBootstrap/grid").toList)).1
      ⟨by decide, by decide⟩,
   (isAllowed_normalize_amended (("https://example.com/AspNetBootstrap/x").toList)).2
      (by decide)⟩

/-! ## Claim C7 -/

/-- C7 (counterexample): normalisation is not idempotent on every input: with
`https://h/a//` the first pass strips one trailing slash and the second pass
strips another. -/
theorem normalize_idem_counterexample :
    normalizeUrl (normalizeUrl (("https://h/a//").toList)) ≠
      normalizeUrl (("https://h/a//").toList) := by
  decide

/-- C7 (amended): normalize(normalize(u)) = normalize(u) for every input
string u whose parsed pathname does not end in two consecutive slashes
(unparseable input included). -/
theorem normalize_idem_amended (s : List Char) (h : pathEndsTwoSlash s = false) :
    normalizeUrl (normalizeUrl s) = normalizeUrl s := by
  cases hp : parseUrl s with
  | none => rw [normalize_of_parse_none hp, normalize_of_parse_none hp]
  | some u =>
    have h2 : endsTwoSlash u.pathname = false := by
      unfold pathEndsTwoSlash at h
      rw [hp] at h
      exact h
    exact normalize_idem_of_parse hp h2

/-- Witness for C7's amended theorem at a concrete URL with query, fragment
and a single trailing slash. -/
theorem normalize_idem_amended_witness :
    normalizeUrl (normalizeUrl (("https://h/a/?q=1#f").toList)) =
      normalizeUrl (("https://h/a/?q=1#f").toList) :=
  normalize_idem_amended (("https://h/a/?q=1#f").toList) (by decide)

/-! ## Claim C1 -/

theorem crawlT_loop_allowed (env : CrawlEnv) (maxPages : Nat) :
    ∀ (fuel : Nat) (st : CrawlT.CrawlState),
      st.pages.all (fun p => isAllowedUrl p.url) = true →
      ((CrawlT.crawlLoop env maxPages fuel st).pages.all
        (fun p => isAllowedUrl p.url)) = true := by
  intro fuel
  induction fuel with
  | zero => intro st h; simpa [CrawlT.crawlLoop] using h
  | succ n ih =>
    intro st h
    rw [CrawlT.crawlLoop]
    cases hq : st.queue with
    | nil => exact h
    | cons url rest =>
      dsimp only
      split
      · split
        · exact ih _ h
        · split
          · split
            · split
              · exact h
              · exact ih _ h
            · refine ih _ ?_
              simp only [List.all_append, Bool.and_eq_true]
              refine ⟨h, ?_⟩
              simp only [List.all_cons, List.all_nil, Bool.and_true, mkPage]
              assumption
          · exact ih _ h
      · exact h

theorem serverT_loop_allowed (env : CrawlEnv) (maxPages : Nat) :
    ∀ (fuel : Nat) (st : ServerT.SCrawlState),
      st.pages.all (fun p => isAllowedUrl p.url) = true →
      ((ServerT.crawlLoop env maxPages fuel st).pages.all
        (fun p => isAllowedUrl p.url)) = true := by
  intro fuel
  induction fuel with
  | zero => intro st h; simpa [ServerT.crawlLoop] using h
  | succ n ih =>
    intro st h
    rw [ServerT.crawlLoop]
    cases hq : st.queue with
    | nil => exact h
    | cons url rest =>
      dsimp only
      split
      · split
        · exact ih _ h
        · split
          · split
            · exact ih _ h
            · refine ih _ ?_
              simp only [List.all_append, Bool.and_eq_true]
              refine ⟨h, ?_⟩
              simp only [List.all_cons, List.all_nil, Bool.and_true, mkPage]
              assumption
          · exact ih _ h
      · exact h

/-- C1: every page stored by a documentation crawl run (both the standalone
crawl.ts engine and the server.ts engine), for any environment, start URL,
page budget and fuel, has a url accepted by the scope filter. -/
theorem crawl_stores_only_allowed_urls (env : CrawlEnv) (startUrl : List Char)
    (maxPages fuel : Nat) :
    ((CrawlT.crawlDocumentation env startUrl maxPages fuel).pages.all
      (fun p => isAllowedUrl p.url)) = true ∧
    ((ServerT.crawlDocumentation env startUrl maxPages fuel).pages.all
      (fun p => isAllowedUrl p.url)) = true :=
  ⟨crawlT_loop_allowed env maxPages fuel _ rfl,
   serverT_loop_allowed env maxPages fuel _ rfl⟩

/-! ## Claim C2 -/

theorem crawlT_loop_bounds (env : CrawlEnv) (maxPages : Nat) :
    ∀ (fuel : Nat) (st : CrawlT.CrawlState),
      st.pages.length ≤ maxPages →
      st.consecutiveFailures ≤ st.failures →
      (CrawlT.crawlLoop env maxPages fuel st).pages.length ≤ maxPages ∧
      (CrawlT.crawlLoop env maxPages fuel st).consecutiveFailures ≤
        (CrawlT.crawlLoop env maxPages fuel st).failures := by
  intro fuel
  induction fuel with
  | zero =>
    intro st h1 h2
    simpa [CrawlT.crawlLoop] using ⟨h1, h2⟩
  | succ n ih =>
    intro st h1 h2
    rw [CrawlT.crawlLoop]
    cases hq : st.queue with
    | nil => exact ⟨h1, h2⟩
    | cons url rest =>
      dsimp only
      split
      next hlt =>
        split
        next => exact ih _ h1 h2
        next =>
          split
          next =>
            split
            next =>
              split
              next => exact ⟨h1, by dsimp only; omega⟩
              next => exact ih _ h1 (by dsimp only; omega)
            next doc hfe =>
              refine ih _ ?_ (by dsimp only; omega)
              dsimp only
              simp only [List.length_append, List.length_cons, List.length_nil]
              omega
          next => exact ih _ h1 h2
      next => exact ⟨h1, h2⟩

/-- C2: for every crawl run of the standalone engine in which the
consecutive-failure counter reached the breaker threshold of 10, the crawl
stopped with at most maxPages stored pages and a total failure count of at
least 10. -/
theorem crawl_circuit_breaker (env : CrawlEnv) (startUrl : List Char)
    (maxPages fuel : Nat)
    (h : 10 ≤ (CrawlT.crawlDocumentation env startUrl maxPages fuel).consecutiveFailures) :
    (CrawlT.crawlDocumentation env startUrl maxPages fuel).pages.length ≤ maxPages ∧
    10 ≤ (CrawlT.crawlDocumentation env startUrl maxPages fuel).failures := by
  have hb := crawlT_loop_bounds env maxPages fuel
    { queue := [normalizeUrl startUrl], visited := [], pages := [],
      failures := 0, consecutiveFailures := 0 } (by simp) (by simp)
  exact ⟨hb.1, le_trans h hb.2⟩

/-- Witness for C2 at the fixture environment: one successful page whose ten
links all fail. -/
theorem crawl_circuit_breaker_witness :
    (CrawlT.crawlDocumentation envC2 startC2 5 30).pages.length ≤ 5 ∧
    10 ≤ (CrawlT.crawlDocumentation envC2 startC2 5 30).failures :=
  crawl_circuit_breaker envC2 startC2 5 30 (by decide)

/-! ## Claim C6 -/

/-- C6 (counterexample): the claim that the merged result contains no two
records with the same url fails for an existing page set that already has a
duplicated url: the merge keeps every existing record unconditionally. -/
theorem merge_counterexample :
    ¬ ((mergePages [pgA, pgA] []).map IndexedPage.url).Nodup := by
  decide

/-- C6 (amended): provided the existing set and the freshly crawled set each
have pairwise-distinct urls, the merged result has no duplicate url, keeps
every existing record verbatim as its prefix, and appends exactly the new
pages (those whose url is not already present) after the existing ones. -/
theorem merge_amended (existingPages pages : List IndexedPage)
    (hex : (existingPages.map IndexedPage.url).Nodup)
    (hpg : (pages.map IndexedPage.url).Nodup) :
    ((mergePages existingPages pages).map IndexedPage.url).Nodup ∧
    (mergePages existingPages pages).take existingPages.length = existingPages ∧
    (mergePages existingPages pages).drop existingPages.length =
      pages.filter (fun p => ¬ p.url ∈ existingPages.map IndexedPage.url) := by
  unfold mergePages
  refine ⟨?_, List.take_left _ _, List.drop_left _ _⟩
  rw [List.map_append, List.nodup_append]
  refine ⟨hex, ?_, ?_⟩
  · exact hpg.sublist (List.Sublist.map IndexedPage.url (List.filter_sublist pages))
  · intro a ha hb
    simp only [List.mem_map] at ha hb
    obtain ⟨p, hpmem, hpa⟩ := hb
    obtain ⟨q, hq, hqa⟩ := ha
    rw [List.mem_filter] at hpmem
    have hnp : ∀ x ∈ existingPages, ¬ x.url = p.url := by
      simpa [List.mem_map] using of_decide_eq_true hpmem.2
    exact hnp q hq (by rw [hqa, hpa])

/-- Witness for C6's amended theorem: one existing page, a fresh crawl that
re-crawled the same url with different content plus one new page; the
existing record survives verbatim and only the new page is appended. -/
theorem merge_amended_witness :
    ((mergePages [pgA] [pgB, pgC]).map IndexedPage.url).Nodup ∧
    (mergePages [pgA] [pgB, pgC]).take [pgA].length = [pgA] ∧
    (mergePages [pgA] [pgB, pgC]).drop [pgA].length =
      [pgB, pgC].filter (fun p => ¬ p.url ∈ [pgA].map IndexedPage.url) :=
  merge_amended [pgA] [pgB, pgC] (by decide) (by decide)

/-! ## Claim C5 -/

theorem dedupKeepFirst_nodup :
    ∀ (l seen : List (List Char)),
      (dedupKeepFirst seen l).Nodup ∧ ∀ x ∈ dedupKeepFirst seen l, x ∉ seen := by
  intro l
  induction l with
  | nil => intro seen; simp [dedupKeepFirst]
  | cons x xs ih =>
    intro seen
    unfold dedupKeepFirst
    split
    next hmem => exact ih seen
    next hmem =>
      obtain ⟨hnd, hni⟩ := ih (x :: seen)
      refine ⟨List.nodup_cons.mpr ⟨fun hx => (hni x hx) (by simp), hnd⟩, ?_⟩
      intro y hy
      rcases List.mem_cons.mp hy with hy | hy
      · rw [hy]; exact hmem
      · intro hys
        exact hni y hy (by simp [hys])

theorem dedupKeepFirst_subset :
    ∀ (l seen : List (List Char)) (x : List Char),
      x ∈ dedupKeepFirst seen l → x ∈ l := by
  intro l
  induction l with
  | nil => intro seen x hx; simp [dedupKeepFirst] at hx
  | cons y ys ih =>
    intro seen x hx
    unfold dedupKeepFirst at hx
    split at hx
    · exact List.mem_cons.mpr (Or.inr (ih _ _ hx))
    · rcases List.mem_cons.mp hx with hx | hx
      · exact List.mem_cons.mpr (Or.inl hx)
      · exact List.mem_cons.mpr (Or.inr (ih _ _ hx))

/-- C5: every GitHubExample produced by the walker's indexFile has
relatedClasses and relatedMethods sequences free of duplicates and free of
keyword-stoplist entries. -/
theorem metadata_nodup_stoplist (env : GH.GHEnv)
    (owner repo filePath downloadUrl : List Char) (ex : GH.GitHubExample)
    (h : GH.indexFile env owner repo filePath downloadUrl = some ex) :
    ex.relatedClasses.Nodup ∧ ex.relatedMethods.Nodup ∧
    (ex.relatedClasses.all (fun k => ¬ k ∈ GH.classStoplist)) = true ∧
    (ex.relatedMethods.all (fun k => ¬ k ∈ GH.methodStoplist)) = true := by
  unfold GH.indexFile at h
  cases hf : env.fetchFile downloadUrl with
  | none => rw [hf] at h; simp at h
  | some content =>
    rw [hf] at h
    dsimp only at h
    split at h
    · simp at h
    · simp only [Option.some_inj] at h
      subst h
      dsimp only [GH.extractMetadata]
      refine ⟨?_, ?_, ?_, ?_⟩
      · exact ((dedupKeepFirst_nodup _ []).1).sublist (List.take_sublist _ _)
      · exact ((dedupKeepFirst_nodup _ []).1).sublist (List.take_sublist _ _)
      · rw [List.all_eq_true]
        intro k hk
        have hk2 := dedupKeepFirst_subset _ _ _ ((List.take_sublist _ _).mem hk)
        rw [List.mem_filter] at hk2
        have := of_decide_eq_true hk2.2
        simpa using this
      · rw [List.all_eq_true]
        intro k hk
        have hk2 := dedupKeepFirst_subset _ _ _ ((List.take_sublist _ _).mem hk)
        rw [List.mem_filter] at hk2
        have := of_decide_eq_true hk2.2
        simpa using this

/-- Witness for C5 at the fixture file whose captures contain duplicates and
keywords. -/
theorem metadata_nodup_stoplist_witness :
    exC5.relatedClasses.Nodup ∧ exC5.relatedMethods.Nodup ∧
    (exC5.relatedClasses.all (fun k => ¬ k ∈ GH.classStoplist)) = true ∧
    (exC5.relatedMethods.all (fun k => ¬ k ∈ GH.methodStoplist)) = true :=
  metadata_nodup_stoplist envC5 (("DevExpress-Examples").toList) (("demo").toList)
    (("CS/My_Grid.aspx.cs").toList) (("du1").toList) exC5 (by decide)

/-! ## Claim C4 -/

theorem indexFile_content_bounds {env : GH.GHEnv}
    {owner repo filePath downloadUrl : List Char} {ex : GH.GitHubExample}
    (h : GH.indexFile env owner repo filePath downloadUrl = some ex) :
    ex.content.length ≤ 8000 ∧ 50 ≤ ex.content.length := by
  unfold GH.indexFile at h
  cases hf : env.fetchFile downloadUrl with
  | none => rw [hf] at h; simp at h
  | some content =>
    rw [hf] at h
    dsimp only at h
    split at h
    · simp at h
    next hge =>
      simp only [Option.some_inj] at h
      subst h
      dsimp only
      rw [List.length_take]
      omega

theorem crawlFilesLoop_bounds (env : GH.GHEnv) (owner repo : List Char) :
    ∀ (files : List GH.FileRef) (maxFiles : Nat) (acc : List GH.GitHubExample),
      (acc.all (fun e =>
        decide (e.content.length ≤ 8000) && decide (50 ≤ e.content.length))) = true →
      ((GH.crawlFilesLoop env owner repo files maxFiles acc).all (fun e =>
        decide (e.content.length ≤ 8000) && decide (50 ≤ e.content.length))) = true := by
  intro files
  induction files with
  | nil => intro maxFiles acc h; simpa [GH.crawlFilesLoop] using h
  | cons f fs ih =>
    intro maxFiles acc h
    unfold GH.crawlFilesLoop
    split
    · exact h
    · cases hidx : GH.indexFile env owner repo f.path f.downloadUrl with
      | none => exact ih maxFiles acc h
      | some ex =>
        refine ih maxFiles _ ?_
        simp only [List.all_append, Bool.and_eq_true]
        refine ⟨h, ?_⟩
        have hb := indexFile_content_bounds hidx
        simp [hb.1, hb.2]

theorem crawlPathsLoop_bounds (env : GH.GHEnv) (owner repo : List Char) :
    ∀ (paths : List (List Char)) (maxFiles fuel : Nat) (acc : List GH.GitHubExample),
      (acc.all (fun e =>
        decide (e.content.length ≤ 8000) && decide (50 ≤ e.content.length))) = true →
      ((GH.crawlPathsLoop env owner repo paths maxFiles fuel acc).all (fun e =>
        decide (e.content.length ≤ 8000) && decide (50 ≤ e.content.length))) = true := by
  intro paths
  induction paths with
  | nil => intro maxFiles fuel acc h; simpa [GH.crawlPathsLoop] using h
  | cons bp bps ih =>
    intro maxFiles fuel acc h
    unfold GH.crawlPathsLoop
    split
    · exact h
    · exact ih maxFiles fuel _ (crawlFilesLoop_bounds env owner repo _ _ _ h)

theorem crawlReposLoop_bounds (env : GH.GHEnv) :
    ∀ (repos : List GH.RepoSpec) (maxFiles fuel : Nat) (acc : List GH.GitHubExample),
      (acc.all (fun e =>
        decide (e.content.length ≤ 8000) && decide (50 ≤ e.content.length))) = true →
      ((GH.crawlReposLoop env repos maxFiles fuel acc).all (fun e =>
        decide (e.content.length ≤ 8000) && decide (50 ≤ e.content.length))) = true := by
  intro repos
  induction repos with
  | nil => intro maxFiles fuel acc h; simpa [GH.crawlReposLoop] using h
  | cons r rs ih =>
    intro maxFiles fuel acc h
    unfold GH.crawlReposLoop
    split
    · exact h
    · exact ih maxFiles fuel _ (crawlPathsLoop_bounds env r.owner r.repo _ _ _ _ h)

/-- C4: every example stored by the repository file walker has content capped
at the fixed 8000-character maximum (and at least the 50-character minimum);
and any fetched file whose raw content is shorter than 50 characters is
discarded by indexFile, so it never reaches the stored examples. -/
theorem walker_content_bounds (env : GH.GHEnv) (maxFiles fuel : Nat) :
    ((GH.crawlGitHubExamples env maxFiles fuel).all (fun e =>
      decide (e.content.length ≤ 8000) && decide (50 ≤ e.content.length))) = true ∧
    (∀ owner repo filePath downloadUrl c,
      env.fetchFile downloadUrl = some c → c.text.length < 50 →
      GH.indexFile env owner repo filePath downloadUrl = none) := by
  constructor
  · exact crawlReposLoop_bounds env GH.DEVEXPRESS_REPOS maxFiles fuel [] rfl
  · intro owner repo filePath downloadUrl c hc hlt
    unfold GH.indexFile
    rw [hc]
    dsimp only
    rw [if_pos hlt]

/-- Witness for C4 at the fixture environment whose only file is 30
characters long. -/
theorem walker_content_bounds_witness :
    ((GH.crawlGitHubExamples envC4 3 5).all (fun e =>
      decide (e.content.length ≤ 8000) && decide (50 ≤ e.content.length))) = true ∧
    GH.indexFile envC4 (("o").toList) (("r").toList) (("f.cs").toList)
      (("du").toList) = none :=
  ⟨(walker_content_bounds envC4 3 5).1,
   (walker_content_bounds envC4 3 5).2 (("o").toList) (("r").toList)
     (("f.cs").toList) (("du").toList) cShortC4 (by decide) (by decide)⟩

/-! ## Claim C8 -/

/-- C8: whenever the top-result handler resolves a stored page (a successful
call), the body text it returns is the stored text unchanged when that text
has at most maxChars characters, and otherwise the stored text truncated to
maxChars with the explicit truncation marker appended. -/
theorem open_top_result_truncation (st : ServerT.ServerState) (query : List Char)
    (includeCode : Bool) (maxChars : Nat) (p : IndexedPage)
    (hp : ServerT.topPageOf st query = some p)
    (hok : isAllowedUrl p.url = true) :
    ServerT.responseText (ServerT.handleOpenTopResult st query includeCode maxChars) =
      some (if p.text.length ≤ maxChars then p.text
            else p.text.take maxChars ++ ServerT.truncMarker maxChars) := by
  unfold ServerT.topPageOf at hp
  unfold ServerT.handleOpenTopResult
  cases hsi : st.searchIndex with
  | none => rw [hsi] at hp; simp at hp
  | some se =>
    rw [hsi] at hp
    dsimp only at hp ⊢
    by_cases hlen : st.indexedPages.length = 0
    · rw [if_pos hlen] at hp
      simp at hp
    · rw [if_neg hlen] at hp ⊢
      cases hq : se query with
      | nil => rw [hq] at hp; simp at hp
      | cons top rest =>
        rw [hq] at hp
        dsimp only at hp ⊢
        rw [hp]
        dsimp only
        rw [if_pos hok]
        unfold ServerT.responseText
        dsimp only
        by_cases hle : p.text.length ≤ maxChars
        · rw [if_neg (by omega), if_pos hle]
        · rw [if_pos (by omega), if_neg hle]

set_option maxRecDepth 4000 in
/-- Witness for C8: the stored 11-character text is truncated at 5 characters
with the marker appended. -/
theorem open_top_result_truncation_witness :
    ServerT.responseText (ServerT.handleOpenTopResult stC8 (("grid").toList) true 5) =
      some (if pgC8.text.length ≤ 5 then pgC8.text
            else pgC8.text.take 5 ++ ServerT.truncMarker 5) :=
  open_top_result_truncation stC8 (("grid").toList) true 5 pgC8 (by decide) (by decide)

/-! ## Claim C9 -/

/-- C9: searching with no corpus loaded (the search index absent or the
stored record collection empty) returns the NoIndex status, not NoResults,
for both the documentation search and the code-example search. -/
theorem empty_index_noindex (stD : ServerT.ServerState) (stG : GH.GHServerState)
    (q1 q2 : List Char) (includeCode : Bool) (maxChars : Nat)
    (language : Option (List Char)) (maxResults : Nat) :
    ((stD.searchIndex = none ∨ stD.indexedPages = []) →
      ServerT.handleOpenTopResult stD q1 includeCode maxChars =
        ServerT.TopResultResponse.noIndex) ∧
    ((stG.githubSearchIndex = none ∨ stG.githubExamples = []) →
      GH.handleSearchExamples stG q2 language maxResults =
        GH.SearchExamplesResponse.noIndex) := by
  constructor
  · rintro (h | h)
    · unfold ServerT.handleOpenTopResult
      rw [h]
    · unfold ServerT.handleOpenTopResult
      cases hsi : stD.searchIndex with
      | none => rfl
      | some se =>
        dsimp only
        rw [if_pos (by rw [h]; rfl)]
  · rintro (h | h)
    · unfold GH.handleSearchExamples
      rw [h]
    · unfold GH.handleSearchExamples
      cases hsi : stG.githubSearchIndex with
      | none => rfl
      | some se =>
        dsimp only
        rw [if_pos (by rw [h]; rfl)]

/-- Witness for C9 at the two empty server states. -/
theorem empty_index_noindex_witness :
    ServerT.handleOpenTopResult stEmptyD (("grid").toList) true 100 =
      ServerT.TopResultResponse.noIndex ∧
    GH.handleSearchExamples stEmptyG (("grid").toList) none 5 =
      GH.SearchExamplesResponse.noIndex :=
  ⟨(empty_index_noindex stEmptyD stEmptyG (("grid").toList) (("grid").toList)
      true 100 none 5).1 (Or.inl rfl),
   (empty_index_noindex stEmptyD stEmptyG (("grid").toList) (("grid").toList)
      true 100 none 5).2 (Or.inl rfl)⟩

/-! ## Claim C10 -/

/-- C10: the refresh handler rejects a start URL that fails the scope filter
with an error payload, without crawling, leaving the in-memory corpus state
(indexedPages, searchIndex, indexMeta) exactly as it was. -/
theorem refresh_rejects_disallowed_start (env : CrawlEnv)
    (build : List IndexedPage → ServerT.SearchEngine) (now : List Char)
    (st : ServerT.ServerState) (startUrl : List Char) (maxPages delayMs fuel : Nat)
    (h : isAllowedUrl startUrl = false) :
    ServerT.handleRefreshIndex env build now st startUrl maxPages delayMs fuel =
      (ServerT.RefreshResponse.error ServerT.scopeErrMsg, st) := by
  unfold ServerT.handleRefreshIndex
  rw [if_neg (by simp [h])]

/-- Witness for C10 at a loaded corpus and a foreign-host start URL. -/
theorem refresh_rejects_disallowed_start_witness :
    ServerT.handleRefreshIndex envC2 buildTrivial (("now").toList) stC8
      (("https://example.com/x").toList) 5 200 10 =
      (ServerT.RefreshResponse.error ServerT.scopeErrMsg, stC8) :=
  refresh_rejects_disallowed_start envC2 buildTrivial (("now").toList) stC8
    (("https://example.com/x").toList) 5 200 10 (by decide)
